import Mathlib

/-!
# Verification of io-fixed-throughput (src/main.cpp)

A shallow embedding of the core of `io-fixed-throughput`, a C++ benchmark
that performs block-aligned direct I/O against a file, optionally throttled
to a target bandwidth, using one or more worker threads.

The embedding follows `src/main.cpp`:
* `parse_size` / `parse_bandwidth` — the human-readable size-string parser
  (lines 27-74) and the bandwidth-argument validation in `main`
  (lines 238-259).  `rusty_assert` failures abort the process; they are
  modelled as `none` (rejection).
* the aligned buffer computed in `Worker`'s constructor (lines 86-99),
* the short-transfer I/O loops of `Worker::rw_one_block` (lines 136-185),
  driven by an oracle list of OS-call return values,
* the paced / unpaced run loops of `Worker::run` (lines 100-131), with
  time as a `Nat` nanosecond counter and operation durations supplied as
  a list,
* the post-validation control flow plus reporting of `main`
  (lines 303-431), with filesystem state abstracted to
  (exists?, size) and the performed externally-visible actions recorded
  as an effect trace.

Machine integers are modelled as `Nat`; every place where 64-bit
wraparound is reachable in the code under scrutiny (the `size_t`
accumulation and final multiplication of `parse_size`, `n -= ret` in
`rw_one_block`, and the pointer mask in the constructor) carries an
explicit `% 2^64`.
-/

/-! ## Size-string parsing (`parse_size`, main.cpp lines 27-74) -/

/-- The backward walk of `parse_size` collecting the non-digit suffix
(main.cpp lines 31-39).  The input is the reversed character list (the C
code walks `cur` from `start + n - 1` down to `start`); the result is the
collected suffix (still in reversed order, as collected before the
`std::reverse` at line 40) together with the rest of the reversed list,
whose head is the first digit found.  Returns `none` when `cur` reaches
`start` without finding a digit (line 35-37). -/
def split_suffix_rev : List Char → Option (List Char × List Char)
  | [] => none
  | c :: rest =>
    if c.isDigit then some ([], c :: rest)
    else
      match rest with
      | [] => none
      | _ :: _ =>
        match split_suffix_rev rest with
        | none => none
        | some (suf, digs) => some (c :: suf, digs)

/-- The digit-accumulation loop of `parse_size` (main.cpp lines 59-72):
`size += v * base; base *= 10` in `size_t`, walking backward from the last
digit, so both accumulators wrap modulo `2^64`; the loop breaks after
processing `start` (here: the last list element).  A character outside
`'0'..'9'` makes the whole parse fail (`v < 0 || v > 9`, lines 62-65).
The input is the remaining characters in reversed order. -/
def parse_digits_rev : List Char → Nat → Nat → Option Nat
  | [], size, _ => some size
  | c :: rest, size, base =>
    if c.isDigit then
      match rest with
      | [] => some ((size + (c.toNat - 48) * base) % 2 ^ 64)
      | _ :: _ =>
        parse_digits_rev rest ((size + (c.toNat - 48) * base) % 2 ^ 64)
          (base * 10 % 2 ^ 64)
    else none

/-- The suffix → byte-factor table of `parse_size` (main.cpp lines 41-58),
applied to the suffix in its original (already re-reversed) order. -/
def size_unit_of (suffix : List Char) : Option Nat :=
  if suffix = ([] : List Char) then some 1
  else if suffix = ['K'] then some 1024
  else if suffix = ['K', 'i', 'B'] then some 1024
  else if suffix = ['K', 'B'] then some 1000
  else if suffix = ['M'] then some (1024 * 1024)
  else if suffix = ['M', 'i', 'B'] then some (1024 * 1024)
  else if suffix = ['M', 'B'] then some 1000000
  else if suffix = ['G'] then some (1024 * 1024 * 1024)
  else if suffix = ['G', 'i', 'B'] then some (1024 * 1024 * 1024)
  else if suffix = ['G', 'B'] then some 1000000000
  else none

/-- `parse_size` (main.cpp lines 27-74): split off the trailing non-digit
suffix, look up its byte factor, parse the decimal digits starting from
`size = 0`, `base = 1` (lines 59-60), and return `size * size_unit`
(line 73) — a `size_t` product, wrapping modulo `2^64`. -/
def parse_size (s : List Char) : Option Nat :=
  if s.length = 0 then none
  else
    match split_suffix_rev s.reverse with
    | none => none
    | some (sufRev, digsRev) =>
      match size_unit_of sufRev.reverse with
      | none => none
      | some unit =>
        match parse_digits_rev digsRev 0 1 with
        | none => none
        | some v => some (v * unit % 2 ^ 64)

/-- The bandwidth-argument handling of `main` (main.cpp lines 238-259):
require length ≥ 4 and the literal trailing characters `B`, `/`, `s`,
then run `parse_size` on everything except the final two characters
(`bw.size() - 2`, so the trailing `B` is part of the parsed string).
A failed `rusty_assert` aborts the process and is modelled as `none`. -/
def parse_bandwidth (bw : List Char) : Option Nat :=
  if 4 ≤ bw.length ∧ bw.getD (bw.length - 3) ' ' = 'B'
      ∧ bw.getD (bw.length - 2) ' ' = '/' ∧ bw.getD (bw.length - 1) ' ' = 's' then
    parse_size (bw.take (bw.length - 2))
  else none

/-- The mathematical value of a decimal digit string (most significant
digit first). -/
def dec_value (ds : List Char) : Nat :=
  ds.foldl (fun a c => a * 10 + (c.toNat - 48)) 0

/-- The unit cores reachable through the bandwidth path, paired with their
byte factors: the parsed string always ends in `B`, so the suffix seen by
`parse_size` is the core followed by `B`. -/
def bandwidth_units : List (List Char × Nat) :=
  [(['K'], 1000), (['K', 'i'], 1024),
   (['M'], 1000000), (['M', 'i'], 1024 * 1024),
   (['G'], 1000000000), (['G', 'i'], 1024 * 1024 * 1024)]

example : parse_size ['1', '0', '2', '4'] = some 1024 := by decide
example : parse_size ['4', 'K'] = some 4096 := by decide
example : parse_size ['4', 'K', 'B'] = some 4000 := by decide
example : parse_size ['4', 'K', 'i', 'B'] = some 4096 := by decide
example : parse_size ['K'] = none := by decide
example : parse_size [] = none := by decide
example : parse_size ['1', 'B'] = none := by decide
example : parse_bandwidth ['1', '0', 'K', 'B', '/', 's'] = some 10000 := by decide
example : parse_bandwidth ['1', '0', 'K', 'i', 'B', '/', 's'] = some 10240 := by decide
example : parse_bandwidth ['1', '0', 'B', '/', 's'] = none := by decide
example : parse_bandwidth ['1', '0', 'K', 'B', 's'] = none := by decide

/-! ### Parser lemmas -/

theorem split_suffix_rev_sound (r : List Char) :
    ∀ suf digs, split_suffix_rev r = some (suf, digs) →
      r = suf ++ digs ∧ (∀ c ∈ suf, c.isDigit = false) ∧
      ∃ d t, digs = d :: t ∧ d.isDigit = true := by
  induction r with
  | nil => intro suf digs h; simp [split_suffix_rev] at h
  | cons c rest ih =>
    intro suf digs h
    simp only [split_suffix_rev] at h
    by_cases hd : c.isDigit
    · rw [if_pos hd] at h
      obtain ⟨hs, hg⟩ := Prod.mk.injEq .. ▸ Option.some.inj h
      exact ⟨by rw [← hs, ← hg]; rfl, by rw [← hs]; simp, c, rest, hg.symm, hd⟩
    · rw [if_neg hd] at h
      cases rest with
      | nil => exact absurd h (by simp)
      | cons r0 rs =>
        cases hsp : split_suffix_rev (r0 :: rs) with
        | none => rw [hsp] at h; exact absurd h (by simp)
        | some p =>
          obtain ⟨suf0, digs0⟩ := p
          rw [hsp] at h
          obtain ⟨hs, hg⟩ := Prod.mk.injEq .. ▸ Option.some.inj h
          obtain ⟨hr, hnd, d, t, hdt, hdig⟩ := ih suf0 digs0 hsp
          refine ⟨?_, ?_, d, t, by rw [← hg, hdt], hdig⟩
          · rw [← hs, ← hg, hr]; simp
          · intro x hx
            rw [← hs] at hx
            rcases List.mem_cons.mp hx with h1 | h2
            · subst h1; exact Bool.eq_false_iff.mpr hd
            · exact hnd x h2

theorem split_suffix_rev_complete (pre : List Char) :
    ∀ d t, (∀ c ∈ pre, c.isDigit = false) → d.isDigit = true →
      split_suffix_rev (pre ++ d :: t) = some (pre, d :: t) := by
  induction pre with
  | nil => intro d t _ hd; simp [split_suffix_rev, hd]
  | cons c rest ih =>
    intro d t hpre hd
    have hc : c.isDigit = false := hpre c (by simp)
    simp only [List.cons_append, split_suffix_rev]
    rw [if_neg (by simp [hc])]
    have hih := ih d t (fun c hc2 => hpre c (by simp [hc2])) hd
    simp only [List.append_eq]
    cases hre : rest ++ d :: t with
    | nil => exact absurd hre (by simp)
    | cons x xs =>
      rw [hre] at hih
      simp [hih]

theorem dec_value_append (xs : List Char) (c : Char) :
    dec_value (xs ++ [c]) = dec_value xs * 10 + (c.toNat - 48) := by
  simp [dec_value, List.foldl_append]

/-- `dec_value` of a reversed cons: the head of the little-endian digit
list is the least significant digit. -/
theorem dec_value_reverse_cons (c : Char) (rest : List Char) :
    dec_value (c :: rest).reverse = dec_value rest.reverse * 10 + (c.toNat - 48) := by
  rw [List.reverse_cons, dec_value_append]

/-- One step of the wrapping accumulation: adding the next digit with the
wrapped base is congruent to the exact Horner step modulo `2^64`. -/
theorem wrap_step (size base X d : Nat) :
    ((size + d * base) % 2 ^ 64 + X * (base * 10 % 2 ^ 64)) % 2 ^ 64
      = (size + (X * 10 + d) * base) % 2 ^ 64 := by
  have hmod : ((size + d * base) % 2 ^ 64 + X * (base * 10 % 2 ^ 64)) % 2 ^ 64
      = ((size + d * base) + X * (base * 10)) % 2 ^ 64 :=
    (Nat.mod_modEq (size + d * base) (2 ^ 64)).add
      ((Nat.mod_modEq (base * 10) (2 ^ 64)).mul_left X)
  rw [hmod]
  have harr : size + d * base + X * (base * 10) = size + (X * 10 + d) * base := by ring
  rw [harr]

theorem parse_digits_rev_sound (l : List Char) :
    ∀ size base v, size < 2 ^ 64 → parse_digits_rev l size base = some v →
      (∀ c ∈ l, c.isDigit = true) ∧
      v = (size + dec_value l.reverse * base) % 2 ^ 64 := by
  induction l with
  | nil =>
    intro size base v hsz h
    simp only [parse_digits_rev] at h
    refine ⟨by simp, ?_⟩
    rw [← Option.some.inj h]
    rw [show dec_value ([] : List Char).reverse = 0 from rfl]
    rw [Nat.zero_mul, Nat.add_zero, Nat.mod_eq_of_lt hsz]
  | cons c rest ih =>
    intro size base v hsz h
    simp only [parse_digits_rev] at h
    by_cases hd : c.isDigit
    · rw [if_pos hd] at h
      cases rest with
      | nil =>
        refine ⟨by simpa using hd, ?_⟩
        rw [← Option.some.inj h, dec_value_reverse_cons]
        simp [dec_value]
      | cons c2 rest2 =>
        obtain ⟨hall, hv⟩ := ih _ _ v (Nat.mod_lt _ (by norm_num)) h
        refine ⟨?_, ?_⟩
        · intro x hx
          rcases List.mem_cons.mp hx with h1 | h2
          · subst h1; exact hd
          · exact hall x h2
        · rw [hv, wrap_step]
          simp only [dec_value_reverse_cons]
    · rw [if_neg hd] at h; exact absurd h (by simp)

theorem parse_digits_rev_complete (l : List Char) :
    ∀ size base, size < 2 ^ 64 → (∀ c ∈ l, c.isDigit = true) →
      parse_digits_rev l size base =
        some ((size + dec_value l.reverse * base) % 2 ^ 64) := by
  induction l with
  | nil =>
    intro size base hsz _
    simp only [parse_digits_rev]
    rw [show dec_value ([] : List Char).reverse = 0 from rfl]
    rw [Nat.zero_mul, Nat.add_zero, Nat.mod_eq_of_lt hsz]
  | cons c rest ih =>
    intro size base hsz hall
    have hd : c.isDigit = true := hall c (by simp)
    simp only [parse_digits_rev, if_pos hd]
    cases rest with
    | nil =>
      dsimp only
      rw [dec_value_reverse_cons]
      simp [dec_value]
    | cons c2 rest2 =>
      rw [ih ((size + (c.toNat - 48) * base) % 2 ^ 64) (base * 10 % 2 ^ 64)
        (Nat.mod_lt _ (by norm_num)) (fun x hx => hall x (by simp [hx]))]
      dsimp only
      rw [wrap_step]
      simp only [dec_value_reverse_cons]

theorem size_unit_of_core (core : List Char) (factor : Nat)
    (h : (core, factor) ∈ bandwidth_units) :
    size_unit_of (core ++ ['B']) = some factor := by
  simp only [bandwidth_units, List.mem_cons, List.mem_singleton] at h
  rcases h with h | h | h | h | h | h | h <;>
    first
      | (rw [Prod.mk.injEq] at h; obtain ⟨rfl, rfl⟩ := h; decide)
      | exact absurd h (by simp)

set_option maxHeartbeats 1000000 in
theorem size_unit_of_inv (suf : List Char) (factor : Nat)
    (hu : size_unit_of suf = some factor) (hB : suf.getLast? = some 'B') :
    ∃ core, suf = core ++ ['B'] ∧ (core, factor) ∈ bandwidth_units := by
  unfold size_unit_of at hu
  split_ifs at hu with h1 h2 h3 h4 h5 h6 h7 h8 h9 h10
  · subst h1; exact absurd hB (by decide)
  · subst h2; exact absurd hB (by decide)
  · subst h3
    exact ⟨['K', 'i'], rfl, by rw [← Option.some.inj hu]; decide⟩
  · subst h4
    exact ⟨['K'], rfl, by rw [← Option.some.inj hu]; decide⟩
  · subst h5; exact absurd hB (by decide)
  · subst h6
    exact ⟨['M', 'i'], rfl, by rw [← Option.some.inj hu]; decide⟩
  · subst h7
    exact ⟨['M'], rfl, by rw [← Option.some.inj hu]; decide⟩
  · subst h8; exact absurd hB (by decide)
  · subst h9
    exact ⟨['G', 'i'], rfl, by rw [← Option.some.inj hu]; decide⟩
  · subst h10
    exact ⟨['G'], rfl, by rw [← Option.some.inj hu]; decide⟩

theorem bandwidth_units_core_facts (core : List Char) (factor : Nat)
    (h : (core, factor) ∈ bandwidth_units) :
    (∀ c ∈ core, c.isDigit = false) ∧ 1 ≤ core.length := by
  simp only [bandwidth_units, List.mem_cons] at h
  rcases h with h | h | h | h | h | h | h <;>
    first
      | (rw [Prod.mk.injEq] at h; obtain ⟨rfl, rfl⟩ := h; exact ⟨by decide, by decide⟩)
      | exact absurd h (by simp)

/-- **C9 (amended claim).**  A bandwidth argument parses successfully iff it
is `<digits><unit>B/s` with a nonempty decimal digit string and a *nonempty*
unit core from the `K`/`Ki`/`M`/`Mi`/`G`/`Gi` families (decimal units are
powers of 1000, binary units powers of 1024), and the resulting bandwidth in
bytes/second is the decimal number multiplied by the unit factor, reduced
modulo `2^64` — the whole computation runs in `size_t`, so values of
`2^64` bytes/second or more wrap around; the result equals
number × factor whenever that product is below `2^64`; every other string —
including the bare `<number>B/s` form the original claim admits — is
rejected. -/
theorem parse_bandwidth_units_iff (bw : List Char) (v : Nat) :
    parse_bandwidth bw = some v ↔
      ∃ ds core factor, (core, factor) ∈ bandwidth_units ∧ ds ≠ [] ∧
        (∀ c ∈ ds, c.isDigit = true) ∧ bw = ds ++ core ++ ['B', '/', 's'] ∧
        v = dec_value ds * factor % 2 ^ 64 := by
  constructor
  · intro h
    unfold parse_bandwidth at h
    split_ifs at h with hcond
    obtain ⟨hlen, hB, hslash, hs⟩ := hcond
    set head := bw.take (bw.length - 2) with hheadDef
    have hheadlen : head.length = bw.length - 2 := by
      rw [hheadDef, List.length_take]
      omega
    have hidx3 : bw.length - 3 < bw.length := by omega
    have hidx2 : bw.length - 2 < bw.length := by omega
    have hidx1 : bw.length - 1 < bw.length := by omega
    have hBsome : bw[bw.length - 3]? = some 'B' := by
      rw [List.getElem?_eq_getElem hidx3]
      rw [List.getD_eq_getElem?_getD, List.getElem?_eq_getElem hidx3] at hB
      simpa using hB
    have hslashsome : bw[bw.length - 2]? = some '/' := by
      rw [List.getElem?_eq_getElem hidx2]
      rw [List.getD_eq_getElem?_getD, List.getElem?_eq_getElem hidx2] at hslash
      simpa using hslash
    have hssome : bw[bw.length - 1]? = some 's' := by
      rw [List.getElem?_eq_getElem hidx1]
      rw [List.getD_eq_getElem?_getD, List.getElem?_eq_getElem hidx1] at hs
      simpa using hs
    have hdroplen : (bw.drop (bw.length - 2)).length = 2 := by
      rw [List.length_drop]; omega
    obtain ⟨a, b, hab⟩ := List.length_eq_two.mp hdroplen
    have ha : a = '/' := by
      have h0 : (bw.drop (bw.length - 2))[0]? = some a := by rw [hab]; rfl
      rw [List.getElem?_drop] at h0
      rw [Nat.add_zero] at h0
      rw [hslashsome] at h0
      exact (Option.some.inj h0).symm
    have hb : b = 's' := by
      have h1 : (bw.drop (bw.length - 2))[1]? = some b := by rw [hab]; rfl
      rw [List.getElem?_drop] at h1
      have : bw.length - 2 + 1 = bw.length - 1 := by omega
      rw [this, hssome] at h1
      exact (Option.some.inj h1).symm
    have hbw : bw = head ++ ['/', 's'] := by
      rw [hheadDef]
      conv_lhs => rw [← List.take_append_drop (bw.length - 2) bw]
      rw [hab, ha, hb]
    have hheadlast : head.getLast? = some 'B' := by
      rw [List.getLast?_eq_getElem?, hheadlen]
      have : bw.length - 2 - 1 = bw.length - 3 := by omega
      rw [this, hheadDef, List.getElem?_take, if_pos (by omega)]
      exact hBsome
    -- now dissect parse_size head = some v
    unfold parse_size at h
    rw [if_neg (by omega)] at h
    cases hsp : split_suffix_rev head.reverse with
    | none => rw [hsp] at h; exact absurd h (by simp)
    | some p =>
      obtain ⟨sufRev, digsRev⟩ := p
      rw [hsp] at h
      dsimp only at h
      obtain ⟨hrev, hnd, d, t, hdt, hdig⟩ := split_suffix_rev_sound head.reverse sufRev digsRev hsp
      have hhead : head = digsRev.reverse ++ sufRev.reverse := by
        have := congrArg List.reverse hrev
        rw [List.reverse_reverse, List.reverse_append] at this
        exact this
      cases hun : size_unit_of sufRev.reverse with
      | none => rw [hun] at h; exact absurd h (by simp)
      | some unit =>
        rw [hun] at h
        dsimp only at h
        cases hpd : parse_digits_rev digsRev 0 1 with
        | none => rw [hpd] at h; exact absurd h (by simp)
        | some v0 =>
          rw [hpd] at h
          dsimp only at h
          have hv : v0 * unit % 2 ^ 64 = v := Option.some.inj h
          obtain ⟨hdigits, hv0⟩ :=
            parse_digits_rev_sound digsRev 0 1 v0 (by norm_num) hpd
          have hds_ne : digsRev.reverse ≠ ([] : List Char) := by
            rw [hdt]; simp
          have hsufB : sufRev.reverse.getLast? = some 'B' := by
            rw [hhead, List.getLast?_append] at hheadlast
            cases hsl2 : sufRev.reverse.getLast? with
            | none =>
              rw [hsl2] at hheadlast
              rw [show (none : Option Char).or digsRev.reverse.getLast?
                  = digsRev.reverse.getLast? from rfl] at hheadlast
              have hlast_mem : 'B' ∈ digsRev :=
                List.mem_reverse.mp (List.mem_of_mem_getLast? hheadlast)
              exact absurd (hdigits 'B' hlast_mem) (by decide)
            | some x =>
              rw [hsl2] at hheadlast
              rw [show (some x).or digsRev.reverse.getLast? = some x from rfl] at hheadlast
              exact hheadlast
          obtain ⟨core, hcore, hmem⟩ := size_unit_of_inv sufRev.reverse unit hun hsufB
          refine ⟨digsRev.reverse, core, unit, hmem, hds_ne, ?_, ?_, ?_⟩
          · intro c hc
            exact hdigits c (by rwa [← List.mem_reverse])
          · rw [hbw, hhead, hcore]
            simp [List.append_assoc]
          · rw [← hv, hv0]
            rw [show 0 + dec_value digsRev.reverse * 1 = dec_value digsRev.reverse
              from by ring]
            exact (Nat.mod_modEq (dec_value digsRev.reverse) (2 ^ 64)).mul_right unit
  · rintro ⟨ds, core, factor, hmem, hne, hdig, rfl, rfl⟩
    obtain ⟨hcore_nd, hcore_len⟩ := bandwidth_units_core_facts core factor hmem
    have hdsne1 : 1 ≤ ds.length := by
      cases ds with
      | nil => exact absurd rfl hne
      | cons x xs => simp
    have hlen : (ds ++ core ++ ['B', '/', 's']).length
        = (ds ++ core).length + 3 := by
      rw [List.length_append]
      rfl
    obtain ⟨d, t, hdt⟩ : ∃ d t, ds.reverse = d :: t := by
      cases hr : ds.reverse with
      | nil => exact absurd (List.reverse_eq_nil_iff.mp hr) hne
      | cons x xs => exact ⟨x, xs, rfl⟩
    have hddig : d.isDigit = true := by
      have : d ∈ ds.reverse := by rw [hdt]; simp
      exact hdig d (List.mem_reverse.mp this)
    have hpre_nd : ∀ c ∈ 'B' :: core.reverse, c.isDigit = false := by
      intro c hc
      rcases List.mem_cons.mp hc with h1 | h2
      · subst h1; decide
      · exact hcore_nd c (List.mem_reverse.mp h2)
    have hrevAB : ((ds ++ core) ++ ['B']).reverse
        = ('B' :: core.reverse) ++ ds.reverse := by
      rw [List.reverse_append, List.reverse_append]
      rfl
    have hsplit : split_suffix_rev (((ds ++ core) ++ ['B']).reverse)
        = some ('B' :: core.reverse, ds.reverse) := by
      rw [hrevAB, hdt]
      exact split_suffix_rev_complete ('B' :: core.reverse) d t hpre_nd hddig
    have hsufrev : ('B' :: core.reverse).reverse = core ++ ['B'] := by
      rw [List.reverse_cons, List.reverse_reverse]
    have hps : parse_size ((ds ++ core) ++ ['B'])
        = some (dec_value ds * factor % 2 ^ 64) := by
      unfold parse_size
      rw [if_neg (by simp)]
      rw [hsplit]
      dsimp only
      rw [hsufrev, size_unit_of_core core factor hmem]
      dsimp only
      rw [parse_digits_rev_complete ds.reverse 0 1 (by norm_num)
        (fun c hc => hdig c (List.mem_reverse.mp hc))]
      rw [List.reverse_reverse]
      rw [show 0 + dec_value ds * 1 = dec_value ds from by ring]
      dsimp only
      congr 1
      exact (Nat.mod_modEq (dec_value ds) (2 ^ 64)).mul_right factor
    unfold parse_bandwidth
    have hcond : 4 ≤ ((ds ++ core) ++ ['B', '/', 's']).length ∧
        ((ds ++ core) ++ ['B', '/', 's']).getD
          (((ds ++ core) ++ ['B', '/', 's']).length - 3) ' ' = 'B' ∧
        ((ds ++ core) ++ ['B', '/', 's']).getD
          (((ds ++ core) ++ ['B', '/', 's']).length - 2) ' ' = '/' ∧
        ((ds ++ core) ++ ['B', '/', 's']).getD
          (((ds ++ core) ++ ['B', '/', 's']).length - 1) ' ' = 's' := by
      have hL : ((ds ++ core) ++ ['B', '/', 's']).length = (ds ++ core).length + 3 := by
        rw [List.length_append]; rfl
      refine ⟨by rw [hL, List.length_append]; omega, ?_, ?_, ?_⟩
      · rw [hL, List.getD_eq_getElem?_getD]
        have h3 : (ds ++ core).length + 3 - 3 = (ds ++ core).length + 0 := by omega
        rw [h3, List.getElem?_append, if_neg (by omega)]
        simp
      · rw [hL, List.getD_eq_getElem?_getD]
        have h2 : (ds ++ core).length + 3 - 2 = (ds ++ core).length + 1 := by omega
        rw [h2, List.getElem?_append, if_neg (by omega)]
        simp
      · rw [hL, List.getD_eq_getElem?_getD]
        have h1 : (ds ++ core).length + 3 - 1 = (ds ++ core).length + 2 := by omega
        rw [h1, List.getElem?_append, if_neg (by omega)]
        simp
    rw [if_pos hcond]
    have htake : ((ds ++ core) ++ ['B', '/', 's']).take
        (((ds ++ core) ++ ['B', '/', 's']).length - 2) = (ds ++ core) ++ ['B'] := by
      have hL : ((ds ++ core) ++ ['B', '/', 's']).length = (ds ++ core).length + 3 := by
        rw [List.length_append]; rfl
      rw [hL]
      have h2 : (ds ++ core).length + 3 - 2 = (ds ++ core).length + 1 := by omega
      rw [h2, List.take_append]
      rfl
    rw [htake, hps]

/-- **C9 (counterexample).** The claim says a bandwidth string with an *empty*
unit, `<number>B/s`, parses successfully with factor 1.  It does not: `main`
passes `bw.size() - 2` characters to `parse_size`, so the trailing `B` is part
of the parsed string; the collected suffix is then `B`, which is not in the
suffix table of `parse_size` (main.cpp lines 41-58), and the `rusty_assert`
at line 251 aborts the process.  So `1B/s` is rejected instead of denoting
1 byte/second. -/
theorem parse_bandwidth_rejects_bare_B :
    parse_bandwidth ['1', 'B', '/', 's'] = none := by decide

/-- **C9 (witness).** A concrete accepted bandwidth string: `2KB/s` parses
to 2000 bytes/second, via `parse_bandwidth_units_iff` applied at
`ds = ['2']`, `core = ['K']`, `factor = 1000`. -/
theorem parse_bandwidth_units_iff_witness :
    parse_bandwidth ['2', 'K', 'B', '/', 's'] = some 2000 :=
  (parse_bandwidth_units_iff ['2', 'K', 'B', '/', 's'] 2000).mpr
    ⟨['2'], ['K'], 1000, by decide, by decide, by decide, by decide, by decide⟩

/-- The `size_t` wraparound is reachable from the command line:
`--bandwidth 20000000000GiB/s` makes the program compute
`20000000000 * 2^30 mod 2^64 = 3028092406290448384` bytes/second, not the
exact product `21474836480000000000`. -/
example :
    parse_bandwidth
      ['2', '0', '0', '0', '0', '0', '0', '0', '0', '0', '0',
       'G', 'i', 'B', '/', 's'] = some 3028092406290448384 := by decide
/-! ## The aligned buffer (`Worker::Worker`, main.cpp lines 86-99) -/

/-- The size of the pointer / `size_t` value space (64-bit). -/
def ptrSpace : Nat := 2 ^ 64

/-- The number of bytes of the backing region `buf_` allocated by the
`Worker` constructor: `options_.bs + options_.blksize - 1` (main.cpp
line 92). -/
def Worker.buf_size (bs blksize : Nat) : Nat := bs + blksize - 1

/-- The address of the working slice `aligned_buf_` computed by the
`Worker` constructor (main.cpp lines 93-96):
`((uintptr_t)buf_.data() + blksize - 1) & ~(uintptr_t)(blksize - 1)`,
with `uintptr_t` arithmetic modulo `2^64` made explicit (`~x` is
`2^64 - 1 - x` on 64-bit values). -/
def Worker.aligned_buf (base blksize : Nat) : Nat :=
  ((base + blksize - 1) % ptrSpace) &&& ((ptrSpace - 1) - ((blksize - 1) % ptrSpace))

/-- Bitwise AND with the mask `2^w - 2^k` (all bits `k..w-1` set) clears
the low `k` bits: it rounds a `w`-bit value down to a multiple of `2^k`. -/
theorem land_high_mask (x k w : Nat) (hx : x < 2 ^ w) (hk : k ≤ w) :
    x &&& (2 ^ w - 2 ^ k) = 2 ^ k * (x / 2 ^ k) := by
  have hmask : 2 ^ w - 2 ^ k = 2 ^ k * (2 ^ (w - k) - 1) := by
    rw [Nat.mul_sub_one]
    rw [← Nat.pow_add]
    have : k + (w - k) = w := by omega
    rw [this]
  apply Nat.eq_of_testBit_eq
  intro i
  rw [Nat.testBit_land, hmask, Nat.testBit_mul_pow_two, Nat.testBit_mul_pow_two,
    Nat.testBit_two_pow_sub_one]
  by_cases hik : k ≤ i
  · have h2 : (x / 2 ^ k).testBit (i - k) = x.testBit i := by
      rw [Nat.testBit_to_div_mod, Nat.testBit_to_div_mod, Nat.div_div_eq_div_mul,
        ← Nat.pow_add]
      have h3 : k + (i - k) = i := by omega
      rw [h3]
    by_cases hiw : i < w
    · have h1 : (i - k) < w - k := by omega
      simp [hik, h1, h2]
    · have h1 : ¬((i - k) < w - k) := by omega
      have hxi : x.testBit i = false :=
        Nat.testBit_lt_two_pow (lt_of_lt_of_le hx (Nat.pow_le_pow_right (by omega) (by omega)))
      simp [hik, h1, h2, hxi]
  · simp [hik]

/-- **C6.** For a power-of-two alignment `blksize = 2^k` (and addresses
that fit in 64 bits), the `Worker` constructor allocates a backing region
of exactly `bs + blksize - 1` bytes, and `aligned_buf_` is the *least*
address ≥ the region base that is a multiple of `blksize`; the
`bs`-byte working slice starting there lies entirely inside the backing
region, so its length is exactly `bs`.  (Stability/no-reallocation is
structural: `buf_` is allocated once in the constructor and never
resized.) -/
theorem Worker.aligned_buf_spec (bs blksize base k : Nat)
    (hpow : blksize = 2 ^ k) (hk : k < 64)
    (hbase : base + blksize - 1 < 2 ^ 64) :
    Worker.buf_size bs blksize = bs + blksize - 1 ∧
    blksize ∣ Worker.aligned_buf base blksize ∧
    base ≤ Worker.aligned_buf base blksize ∧
    (∀ y, blksize ∣ y → base ≤ y → Worker.aligned_buf base blksize ≤ y) ∧
    Worker.aligned_buf base blksize + bs ≤ base + Worker.buf_size bs blksize := by
  subst hpow
  have hm0 : 0 < 2 ^ k := Nat.pos_pow_of_pos k (by omega)
  have hmlt : 2 ^ k < 2 ^ 64 := Nat.pow_lt_pow_right (by omega) hk
  have haddr : Worker.aligned_buf base (2 ^ k)
      = 2 ^ k * ((base + 2 ^ k - 1) / 2 ^ k) := by
    unfold Worker.aligned_buf ptrSpace
    have h1 : (2 ^ k - 1) % 2 ^ 64 = 2 ^ k - 1 := Nat.mod_eq_of_lt (by omega)
    have h2 : (base + 2 ^ k - 1) % 2 ^ 64 = base + 2 ^ k - 1 :=
      Nat.mod_eq_of_lt hbase
    rw [h1, h2]
    have h3 : (2 ^ 64 - 1) - (2 ^ k - 1) = 2 ^ 64 - 2 ^ k := by omega
    rw [h3]
    exact land_high_mask (base + 2 ^ k - 1) k 64 hbase (by omega)
  obtain ⟨m, hmdef⟩ : ∃ m, m = 2 ^ k := ⟨_, rfl⟩
  rw [← hmdef] at haddr hbase hm0 hmlt ⊢
  clear hmdef hk
  have hdm := Nat.div_add_mod (base + m - 1) m
  have hr : (base + m - 1) % m < m := Nat.mod_lt _ hm0
  refine ⟨rfl, ⟨(base + m - 1) / m, haddr⟩, by rw [haddr]; omega, ?_, ?_⟩
  · intro y hdvd hy
    obtain ⟨t, rfl⟩ := hdvd
    rw [haddr]
    have hq : (base + m - 1) / m ≤ t := by
      have hle : base + m - 1 ≤ m * t + (m - 1) := by omega
      have hdiv : (base + m - 1) / m ≤ (m * t + (m - 1)) / m :=
        Nat.div_le_div_right hle
      rwa [Nat.mul_add_div hm0, Nat.div_eq_of_lt (show m - 1 < m by omega),
        Nat.add_zero] at hdiv
    exact Nat.mul_le_mul_left _ hq
  · rw [haddr]
    unfold Worker.buf_size
    omega

/-- **C6 (witness).** `Worker.aligned_buf_spec` at `bs = 4096`,
`blksize = 512 = 2^9`, `base = 1000`: the working slice starts at 1024,
the least multiple of 512 that is ≥ 1000. -/
theorem Worker.aligned_buf_spec_witness :
    ((512 : Nat) = 2 ^ 9 ∧ 9 < 64 ∧ 1000 + 512 - 1 < 2 ^ 64) ∧
    (Worker.buf_size 4096 512 = 4096 + 512 - 1 ∧
     512 ∣ Worker.aligned_buf 1000 512 ∧
     1000 ≤ Worker.aligned_buf 1000 512 ∧
     (∀ y, 512 ∣ y → 1000 ≤ y → Worker.aligned_buf 1000 512 ≤ y) ∧
     Worker.aligned_buf 1000 512 + 4096 ≤ 1000 + Worker.buf_size 4096 512) :=
  ⟨⟨by decide, by decide, by decide⟩,
    Worker.aligned_buf_spec 4096 512 1000 9 (by decide) (by decide) (by decide)⟩

example : Worker.aligned_buf 1000 512 = 1024 := by decide

/-! ## The I/O executor (`Worker::rw_one_block`, main.cpp lines 136-185) -/

/-- `size_t` subtraction of an `ssize_t` value, as in `n -= ret`
(main.cpp lines 151, 166, 180): 64-bit wraparound made explicit. -/
def usub64 (n : Nat) (r : Int) : Nat := (((n : Int) - r) % ((2 : Int) ^ 64)).toNat

theorem usub64_eq (n : Nat) (r : Int) (h0 : 0 ≤ r) (hle : r.toNat ≤ n)
    (hn : n < 2 ^ 64) : usub64 n r = n - r.toNat := by
  unfold usub64
  have h64 : ((2 : Int) ^ 64) = 18446744073709551616 := by norm_num
  have hn' : (n : Int) < 18446744073709551616 := by exact_mod_cast hn
  rw [h64]
  omega

/-- The loop state of the `RandRead` arm of `Worker::rw_one_block`
(main.cpp lines 139-154): `bufOff` is the buffer-cursor advance
`buf - aligned_buf_` (bytes already transferred), `n` the remaining byte
count, `offset` the file offset of the next `pread`. -/
structure PreadState where
  bufOff : Nat
  n : Nat
  offset : Nat
deriving DecidableEq, Repr

/-- The `RandRead` do-while loop of `Worker::rw_one_block` (main.cpp
lines 143-153), driven by the list of `pread` return values.  The first
component records each issued call as `(count requested, file offset)`;
the second is `some (ok s)` on normal completion, `some (error s)` when a
call returns `-1` or `0` (`perror` + `rusty_panic`, lines 145-148; a
negative value other than `-1` would instead fail the `assert` at
line 149, equally fatal), and `none` if the oracle list runs out first. -/
def preadLoop : List Int → PreadState → List (Nat × Nat) × Option (Except PreadState PreadState)
  | [], _ => ([], none)
  | ret :: rest, s =>
    if ret = -1 ∨ ret = 0 then ([(s.n, s.offset)], some (Except.error s))
    else if ret < 0 then ([(s.n, s.offset)], some (Except.error s))
    else
      if usub64 s.n ret = 0 then
        ([(s.n, s.offset)],
         some (Except.ok ⟨s.bufOff + ret.toNat, usub64 s.n ret, s.offset + ret.toNat⟩))
      else
        ((s.n, s.offset) ::
            (preadLoop rest ⟨s.bufOff + ret.toNat, usub64 s.n ret, s.offset + ret.toNat⟩).1,
         (preadLoop rest ⟨s.bufOff + ret.toNat, usub64 s.n ret, s.offset + ret.toNat⟩).2)

/-- The loop state of the `Read` / `Write` arms of `Worker::rw_one_block`
(main.cpp lines 155-182): buffer-cursor advance and remaining count; the
file position is the descriptor's implicit cursor, not tracked here. -/
structure CursorState where
  bufOff : Nat
  n : Nat
deriving DecidableEq, Repr

/-- The `Read` and `Write` do-while loops of `Worker::rw_one_block`
(main.cpp lines 158-167 and 172-181).  The two C blocks are textually
identical up to the syscall (`read` vs `write`), so one embedding serves
both; the trace records the count requested by each call. -/
def cursorLoop : List Int → CursorState → List Nat × Option (Except CursorState CursorState)
  | [], _ => ([], none)
  | ret :: rest, s =>
    if ret = -1 ∨ ret = 0 then ([s.n], some (Except.error s))
    else if ret < 0 then ([s.n], some (Except.error s))
    else
      if usub64 s.n ret = 0 then
        ([s.n], some (Except.ok ⟨s.bufOff + ret.toNat, usub64 s.n ret⟩))
      else
        (s.n :: (cursorLoop rest ⟨s.bufOff + ret.toNat, usub64 s.n ret⟩).1,
         (cursorLoop rest ⟨s.bufOff + ret.toNat, usub64 s.n ret⟩).2)

/-- One `RandRead` operation (main.cpp lines 139-154): the initial state
has the buffer cursor at `aligned_buf_`, remaining count `bs`, and file
offset `idx * bs` where `idx` is the sampled block index (line 141). -/
def Worker.rand_read_block (rets : List Int) (bs idx : Nat) :
    List (Nat × Nat) × Option (Except PreadState PreadState) :=
  preadLoop rets ⟨0, bs, idx * bs⟩

/-- One `Read` or `Write` operation (main.cpp lines 155-182): buffer
cursor at `aligned_buf_`, remaining count `bs`. -/
def Worker.cursor_block (rets : List Int) (bs : Nat) :
    List Nat × Option (Except CursorState CursorState) :=
  cursorLoop rets ⟨0, bs⟩

/-- The OS contract for a successful sequence of transfer results against
an initial remaining count `n`: every result is positive, never exceeds
the remaining count it was issued against, and the sequence ends exactly
when the count reaches zero. -/
def drives : Nat → List Int → Bool
  | n, [] => n = 0
  | n, r :: rest => 0 < r && r.toNat ≤ n && drives (n - r.toNat) rest

/-- Total bytes transferred by the first `k` OS calls. -/
def sumTaken (rets : List Int) (k : Nat) : Nat := ((rets.take k).map Int.toNat).sum

theorem sumTaken_zero (rets : List Int) : sumTaken rets 0 = 0 := rfl

theorem sumTaken_cons (r : Int) (rest : List Int) (i : Nat) :
    sumTaken (r :: rest) (i + 1) = r.toNat + sumTaken rest i := by
  simp [sumTaken]

example : drives 8 [3, 5] = true := by decide
example : drives 8 [3, 6] = false := by decide
example : preadLoop [3, 5] ⟨0, 8, 16⟩ =
    ([(8, 16), (5, 19)], some (Except.ok ⟨8, 0, 24⟩)) := rfl
example : preadLoop [3, -1] ⟨0, 8, 16⟩ =
    ([(8, 16), (5, 19)], some (Except.error ⟨3, 5, 19⟩)) := rfl

theorem preadLoop_cons (r : Int) (rest : List Int) (s : PreadState)
    (h1 : ¬(r = -1 ∨ r = 0)) (h2 : ¬r < 0) (h3 : ¬usub64 s.n r = 0) :
    preadLoop (r :: rest) s =
      ((s.n, s.offset) ::
        (preadLoop rest ⟨s.bufOff + r.toNat, usub64 s.n r, s.offset + r.toNat⟩).1,
       (preadLoop rest ⟨s.bufOff + r.toNat, usub64 s.n r, s.offset + r.toNat⟩).2) := by
  conv_lhs => rw [preadLoop]
  rw [if_neg h1, if_neg h2, if_neg h3]

theorem preadLoop_drives (rets : List Int) :
    ∀ b0 n o0, n < 2 ^ 64 → rets ≠ [] → drives n rets = true →
      (preadLoop rets ⟨b0, n, o0⟩).2 = some (Except.ok ⟨b0 + n, 0, o0 + n⟩) ∧
      (preadLoop rets ⟨b0, n, o0⟩).1.length = rets.length ∧
      ∀ i < rets.length, (preadLoop rets ⟨b0, n, o0⟩).1[i]? =
        some (n - sumTaken rets i, o0 + sumTaken rets i) := by
  induction rets with
  | nil => intro b0 n o0 _ hne _; exact absurd rfl hne
  | cons r rest ih =>
    intro b0 n o0 hn hne hdr
    simp only [drives, Bool.and_eq_true, decide_eq_true_eq] at hdr
    obtain ⟨⟨hr0, hrle⟩, hdr'⟩ := hdr
    have hnot1 : ¬(r = -1 ∨ r = 0) := by omega
    have hnot2 : ¬(r < 0) := by omega
    have hsub : usub64 n r = n - r.toNat := usub64_eq n r (by omega) hrle hn
    cases rest with
    | nil =>
      simp only [drives, decide_eq_true_eq] at hdr'
      have hrn : r.toNat = n := by omega
      simp only [preadLoop, if_neg hnot1, if_neg hnot2, hsub, if_pos hdr']
      refine ⟨by rw [hdr', hrn], rfl, ?_⟩
      intro i hi
      have hi0 : i = 0 := by simpa using hi
      subst hi0
      simp [sumTaken]
    | cons r2 rest2 =>
      have hne2 : (r2 :: rest2) ≠ ([] : List Int) := by simp
      have hnz : ¬(n - r.toNat = 0) := by
        intro h0
        rw [h0] at hdr'
        simp only [drives, Bool.and_eq_true, decide_eq_true_eq] at hdr'
        omega
      obtain ⟨hout, hlen, hidx⟩ :=
        ih (b0 + r.toNat) (n - r.toNat) (o0 + r.toNat) (by omega) hne2 hdr'
      rw [preadLoop_cons r (r2 :: rest2) ⟨b0, n, o0⟩ hnot1 hnot2
        (show ¬usub64 n r = 0 by rw [hsub]; exact hnz)]
      dsimp only
      rw [hsub]
      refine ⟨?_, ?_, ?_⟩
      · rw [hout]
        have h1 : b0 + r.toNat + (n - r.toNat) = b0 + n := by omega
        have h2 : o0 + r.toNat + (n - r.toNat) = o0 + n := by omega
        rw [h1, h2]
      · simp only [List.length_cons, hlen]
      · intro i hi
        cases i with
        | zero => simp [sumTaken]
        | succ j =>
          have hj : j < (r2 :: rest2).length := by
            simpa using hi
          simp only [List.getElem?_cons_succ]
          rw [hidx j hj]
          refine congrArg some (Prod.ext ?_ ?_)
          · have := sumTaken_cons r (r2 :: rest2) j
            simp only [this]
            omega
          · have := sumTaken_cons r (r2 :: rest2) j
            simp only [this]
            omega

theorem cursorLoop_cons (r : Int) (rest : List Int) (s : CursorState)
    (h1 : ¬(r = -1 ∨ r = 0)) (h2 : ¬r < 0) (h3 : ¬usub64 s.n r = 0) :
    cursorLoop (r :: rest) s =
      (s.n :: (cursorLoop rest ⟨s.bufOff + r.toNat, usub64 s.n r⟩).1,
       (cursorLoop rest ⟨s.bufOff + r.toNat, usub64 s.n r⟩).2) := by
  conv_lhs => rw [cursorLoop]
  rw [if_neg h1, if_neg h2, if_neg h3]

theorem cursorLoop_drives (rets : List Int) :
    ∀ b0 n, n < 2 ^ 64 → rets ≠ [] → drives n rets = true →
      (cursorLoop rets ⟨b0, n⟩).2 = some (Except.ok ⟨b0 + n, 0⟩) ∧
      (cursorLoop rets ⟨b0, n⟩).1.length = rets.length ∧
      ∀ i < rets.length, (cursorLoop rets ⟨b0, n⟩).1[i]? =
        some (n - sumTaken rets i) := by
  induction rets with
  | nil => intro b0 n _ hne _; exact absurd rfl hne
  | cons r rest ih =>
    intro b0 n hn hne hdr
    simp only [drives, Bool.and_eq_true, decide_eq_true_eq] at hdr
    obtain ⟨⟨hr0, hrle⟩, hdr'⟩ := hdr
    have hnot1 : ¬(r = -1 ∨ r = 0) := by omega
    have hnot2 : ¬(r < 0) := by omega
    have hsub : usub64 n r = n - r.toNat := usub64_eq n r (by omega) hrle hn
    cases rest with
    | nil =>
      simp only [drives, decide_eq_true_eq] at hdr'
      have hrn : r.toNat = n := by omega
      simp only [cursorLoop, if_neg hnot1, if_neg hnot2, hsub, if_pos hdr']
      refine ⟨by rw [hdr', hrn], rfl, ?_⟩
      intro i hi
      have hi0 : i = 0 := by simpa using hi
      subst hi0
      simp [sumTaken]
    | cons r2 rest2 =>
      have hne2 : (r2 :: rest2) ≠ ([] : List Int) := by simp
      have hnz : ¬(n - r.toNat = 0) := by
        intro h0
        rw [h0] at hdr'
        simp only [drives, Bool.and_eq_true, decide_eq_true_eq] at hdr'
        omega
      obtain ⟨hout, hlen, hidx⟩ :=
        ih (b0 + r.toNat) (n - r.toNat) (by omega) hne2 hdr'
      rw [cursorLoop_cons r (r2 :: rest2) ⟨b0, n⟩ hnot1 hnot2
        (show ¬usub64 n r = 0 by rw [hsub]; exact hnz)]
      dsimp only
      rw [hsub]
      refine ⟨?_, ?_, ?_⟩
      · rw [hout]
        have h1 : b0 + r.toNat + (n - r.toNat) = b0 + n := by omega
        rw [h1]
      · simp only [List.length_cons, hlen]
      · intro i hi
        cases i with
        | zero => simp [sumTaken]
        | succ j =>
          have hj : j < (r2 :: rest2).length := by
            simpa using hi
          simp only [List.getElem?_cons_succ]
          rw [hidx j hj]
          refine congrArg some ?_
          have := sumTaken_cons r (r2 :: rest2) j
          simp only [this]
          omega

theorem preadLoop_error_iff (rets : List Int) :
    ∀ s, (∃ sf, (preadLoop rets s).2 = some (Except.error sf)) ↔
      ∃ r ∈ rets.take (preadLoop rets s).1.length, r ≤ 0 := by
  induction rets with
  | nil => intro s; simp [preadLoop]
  | cons r rest ih =>
    intro s
    by_cases h1 : r = -1 ∨ r = 0
    · simp only [preadLoop, if_pos h1]
      constructor
      · rintro -
        exact ⟨r, by simp [List.take_succ_cons], by omega⟩
      · rintro -
        exact ⟨s, rfl⟩
    · obtain ⟨hn1, hn2⟩ := not_or.mp h1
      by_cases h2 : r < 0
      · simp only [preadLoop, if_neg h1, if_pos h2]
        constructor
        · rintro -
          exact ⟨r, by simp [List.take_succ_cons], by omega⟩
        · rintro -
          exact ⟨s, rfl⟩
      · have hr0 : 0 < r := by omega
        by_cases h3 : usub64 s.n r = 0
        · simp only [preadLoop, if_neg h1, if_neg h2, if_pos h3]
          constructor
          · rintro ⟨sf, hsf⟩
            exact absurd hsf (by simp)
          · rintro ⟨x, hx, hxle⟩
            simp only [List.length_singleton, List.take_succ_cons, List.take_zero,
              List.mem_singleton] at hx
            subst hx
            omega
        · rw [preadLoop_cons r rest s h1 h2 h3]
          dsimp only
          rw [List.length_cons, List.take_succ_cons]
          constructor
          · intro hE
            obtain ⟨x, hx, hxle⟩ := (ih _).mp hE
            exact ⟨x, List.mem_cons_of_mem r hx, hxle⟩
          · rintro ⟨x, hx, hxle⟩
            rcases List.mem_cons.mp hx with rfl | hx2
            · omega
            · exact (ih _).mpr ⟨x, hx2, hxle⟩

theorem cursorLoop_error_iff (rets : List Int) :
    ∀ s, (∃ sf, (cursorLoop rets s).2 = some (Except.error sf)) ↔
      ∃ r ∈ rets.take (cursorLoop rets s).1.length, r ≤ 0 := by
  induction rets with
  | nil => intro s; simp [cursorLoop]
  | cons r rest ih =>
    intro s
    by_cases h1 : r = -1 ∨ r = 0
    · simp only [cursorLoop, if_pos h1]
      constructor
      · rintro -
        exact ⟨r, by simp [List.take_succ_cons], by omega⟩
      · rintro -
        exact ⟨s, rfl⟩
    · obtain ⟨hn1, hn2⟩ := not_or.mp h1
      by_cases h2 : r < 0
      · simp only [cursorLoop, if_neg h1, if_pos h2]
        constructor
        · rintro -
          exact ⟨r, by simp [List.take_succ_cons], by omega⟩
        · rintro -
          exact ⟨s, rfl⟩
      · have hr0 : 0 < r := by omega
        by_cases h3 : usub64 s.n r = 0
        · simp only [cursorLoop, if_neg h1, if_neg h2, if_pos h3]
          constructor
          · rintro ⟨sf, hsf⟩
            exact absurd hsf (by simp)
          · rintro ⟨x, hx, hxle⟩
            simp only [List.length_singleton, List.take_succ_cons, List.take_zero,
              List.mem_singleton] at hx
            subst hx
            omega
        · rw [cursorLoop_cons r rest s h1 h2 h3]
          dsimp only
          rw [List.length_cons, List.take_succ_cons]
          constructor
          · intro hE
            obtain ⟨x, hx, hxle⟩ := (ih _).mp hE
            exact ⟨x, List.mem_cons_of_mem r hx, hxle⟩
          · rintro ⟨x, hx, hxle⟩
            rcases List.mem_cons.mp hx with rfl | hx2
            · omega
            · exact (ih _).mpr ⟨x, hx2, hxle⟩

theorem preadLoop_fatal_now (s : PreadState) (r : Int) (rest : List Int)
    (h : r = -1 ∨ r = 0) :
    preadLoop (r :: rest) s = ([(s.n, s.offset)], some (Except.error s)) := by
  simp [preadLoop, h]

theorem cursorLoop_fatal_now (s : CursorState) (r : Int) (rest : List Int)
    (h : r = -1 ∨ r = 0) :
    cursorLoop (r :: rest) s = ([s.n], some (Except.error s)) := by
  simp [cursorLoop, h]

/-! ## Block sampling (`Worker::block_dist`, main.cpp lines 97 and 141) -/

/-- Lower parameter of `block_dist`: `std::uniform_int_distribution<size_t>
block_dist(0, num_blocks - 1)` (main.cpp line 97). -/
def Worker.block_dist_lo : Nat := 0

/-- Upper parameter of `block_dist` (main.cpp line 97); the C++
distribution's support is the closed range `[lo, hi]`. -/
def Worker.block_dist_hi (num_blocks : Nat) : Nat := num_blocks - 1

/-- `std::uniform_int_distribution<size_t>{a, b}` applied to one draw `u`
of a uniform random source, modelled by the standard's contract (each
integer of the closed range `[a, b]` equally likely under a uniform
source): the draw is reduced onto the range of size `b - a + 1`. -/
def uniform_int_sample (a b u : Nat) : Nat := a + u % (b - a + 1)

/-- The block index sampled by `block_dist(rng_)` (main.cpp line 141):
the same map from source draw to index at every iteration. -/
def Worker.sample_block (num_blocks u : Nat) : Nat :=
  uniform_int_sample Worker.block_dist_lo (Worker.block_dist_hi num_blocks) u

theorem Worker.sample_block_eq_mod (n u : Nat) (hn : 0 < n) :
    Worker.sample_block n u = u % n := by
  unfold Worker.sample_block uniform_int_sample Worker.block_dist_lo Worker.block_dist_hi
  have h : n - 1 - 0 + 1 = n := by omega
  rw [h, Nat.zero_add]

theorem preadLoop_first_call (r : Int) (rest : List Int) (s : PreadState) :
    (preadLoop (r :: rest) s).1[0]? = some (s.n, s.offset) := by
  by_cases h1 : r = -1 ∨ r = 0
  · simp [preadLoop, h1]
  · by_cases h2 : r < 0
    · simp [preadLoop, h1, h2]
    · by_cases h3 : usub64 s.n r = 0
      · simp [preadLoop, h1, h2, h3]
      · rw [preadLoop_cons r rest s h1 h2 h3]
        simp

/-- **C3.** Short-transfer loops of `rw_one_block`: for every sequence of
OS results satisfying the OS contract (`drives`) — each call transfers a
positive number of bytes that does not exceed the count it requested, the
last one reaching the total — the loop consumes exactly that sequence and
completes, and the `i`-th issued call requests exactly
`bs - (bytes already transferred)` (never more) at file offset
`initial offset + (bytes already transferred)`.  Reading the trace
entries: `requested + transferred = bs` is the claimed invariant at every
iteration, the buffer cursor (final `bufOff = bs`) and, for `RandRead`,
the offset advance by exactly the transferred amount, and the loop
terminates exactly when the cumulative transfer equals `bs`.  Stated for
both the positioned (`pread`) and the cursor-based (`read`/`write`)
arms. -/
theorem Worker.rw_one_block_short_transfer (bs idx : Nat) (rets : List Int)
    (hbs : bs < 2 ^ 64) (hne : rets ≠ []) (hdr : drives bs rets = true) :
    ((Worker.rand_read_block rets bs idx).2
        = some (Except.ok ⟨bs, 0, idx * bs + bs⟩) ∧
      (Worker.rand_read_block rets bs idx).1.length = rets.length ∧
      ∀ i < rets.length, (Worker.rand_read_block rets bs idx).1[i]? =
        some (bs - sumTaken rets i, idx * bs + sumTaken rets i)) ∧
    ((Worker.cursor_block rets bs).2 = some (Except.ok ⟨bs, 0⟩) ∧
      (Worker.cursor_block rets bs).1.length = rets.length ∧
      ∀ i < rets.length, (Worker.cursor_block rets bs).1[i]? =
        some (bs - sumTaken rets i)) := by
  have h1 := preadLoop_drives rets 0 bs (idx * bs) hbs hne hdr
  have h2 := cursorLoop_drives rets 0 bs hbs hne hdr
  unfold Worker.rand_read_block Worker.cursor_block
  constructor
  · simpa using h1
  · simpa using h2

/-- **C3 (witness).** `bs = 8`, two short transfers `[3, 5]`, block index
2: both loops issue calls requesting `8` then `5`, the positioned one at
offsets `16` then `19`, and complete with exactly 8 bytes transferred. -/
theorem Worker.rw_one_block_short_transfer_witness :
    ((8 : Nat) < 2 ^ 64 ∧ ([3, 5] : List Int) ≠ [] ∧ drives 8 [3, 5] = true) ∧
    (((Worker.rand_read_block [3, 5] 8 2).2
        = some (Except.ok ⟨8, 0, 2 * 8 + 8⟩) ∧
      (Worker.rand_read_block [3, 5] 8 2).1.length = ([3, 5] : List Int).length ∧
      ∀ i < ([3, 5] : List Int).length, (Worker.rand_read_block [3, 5] 8 2).1[i]? =
        some (8 - sumTaken [3, 5] i, 2 * 8 + sumTaken [3, 5] i)) ∧
     ((Worker.cursor_block [3, 5] 8).2 = some (Except.ok ⟨8, 0⟩) ∧
      (Worker.cursor_block [3, 5] 8).1.length = ([3, 5] : List Int).length ∧
      ∀ i < ([3, 5] : List Int).length, (Worker.cursor_block [3, 5] 8).1[i]? =
        some (8 - sumTaken [3, 5] i))) :=
  ⟨⟨by decide, by decide, by decide⟩,
    Worker.rw_one_block_short_transfer 8 2 [3, 5] (by decide) (by decide) (by decide)⟩

/-- **C4.** Fatal handling in `rw_one_block`, for both the positioned and
the cursor-based arms: a call returning `-1` or `0` makes the operation
record exactly that one call and stop with an error (the process panics:
no retry, no recovery — the oracle's remaining entries are never
consulted); and the operation's outcome is an error if and only if some
call it actually issued returned a non-positive value — equivalently, it
can return normally only when every issued call returned strictly
positive bytes. -/
theorem Worker.rw_one_block_fatal_iff :
    (∀ (s : PreadState) (r : Int) (rest : List Int), r = -1 ∨ r = 0 →
      preadLoop (r :: rest) s = ([(s.n, s.offset)], some (Except.error s))) ∧
    (∀ (s : CursorState) (r : Int) (rest : List Int), r = -1 ∨ r = 0 →
      cursorLoop (r :: rest) s = ([s.n], some (Except.error s))) ∧
    (∀ (rets : List Int) (s : PreadState),
      (∃ sf, (preadLoop rets s).2 = some (Except.error sf)) ↔
        ∃ r ∈ rets.take (preadLoop rets s).1.length, r ≤ 0) ∧
    (∀ (rets : List Int) (s : CursorState),
      (∃ sf, (cursorLoop rets s).2 = some (Except.error sf)) ↔
        ∃ r ∈ rets.take (cursorLoop rets s).1.length, r ≤ 0) :=
  ⟨fun s r rest h => preadLoop_fatal_now s r rest h,
   fun s r rest h => cursorLoop_fatal_now s r rest h,
   fun rets s => preadLoop_error_iff rets s,
   fun rets s => cursorLoop_error_iff rets s⟩

/-- **C4 (witness).** A `pread` returning `-1` on the first call: exactly
one call is recorded and the outcome is the fatal error, with the state
unchanged. -/
theorem Worker.rw_one_block_fatal_iff_witness :
    preadLoop [(-1 : Int)] ⟨0, 8, 16⟩ = ([(8, 16)], some (Except.error ⟨0, 8, 16⟩)) :=
  Worker.rw_one_block_fatal_iff.1 ⟨0, 8, 16⟩ (-1) [] (by decide)

/-- **C5.** `RandRead` block sampling: with `block_dist` parametrised by
`(0, num_blocks - 1)` (main.cpp line 97), a sampled index always lies in
`[0, num_blocks)`; over one period of a uniform source every index is
attained exactly once (uniformity of the modelled
`std::uniform_int_distribution`); the first positioned read of the
operation is issued at byte offset `index * bs` (line 141); and the same
source value yields the same index regardless of iteration — repeats
across operations are possible (not a permutation), witnessed by two
distinct draws mapping to the same index. -/
theorem Worker.rand_read_uniform_spec (n u bs : Nat) (r : Int) (rest : List Int)
    (hn : 0 < n) :
    Worker.sample_block n u < n ∧
    (∀ v < n,
      ((Finset.range n).filter fun u0 => Worker.sample_block n u0 = v).card = 1) ∧
    (Worker.rand_read_block (r :: rest) bs (Worker.sample_block n u)).1[0]? =
      some (bs, Worker.sample_block n u * bs) ∧
    (∃ u1 u2, u1 ≠ u2 ∧ Worker.sample_block n u1 = Worker.sample_block n u2) := by
  refine ⟨?_, ?_, ?_, ?_⟩
  · rw [Worker.sample_block_eq_mod n u hn]
    exact Nat.mod_lt _ hn
  · intro v hv
    have hfe : (Finset.range n).filter (fun u0 => Worker.sample_block n u0 = v)
        = (Finset.range n).filter (fun u0 => u0 = v) := by
      refine Finset.filter_congr ?_
      intro u0 hu0
      rw [Worker.sample_block_eq_mod n u0 hn,
        Nat.mod_eq_of_lt (Finset.mem_range.mp hu0)]
    rw [hfe, Finset.filter_eq', if_pos (Finset.mem_range.mpr hv), Finset.card_singleton]
  · exact preadLoop_first_call r rest ⟨0, bs, Worker.sample_block n u * bs⟩
  · refine ⟨0, n, by omega, ?_⟩
    rw [Worker.sample_block_eq_mod n 0 hn, Worker.sample_block_eq_mod n n hn,
      Nat.zero_mod, Nat.mod_self]

/-- **C5 (witness).** `num_blocks = 4`, draw `7`: the sampled index is 3,
in range; each of the 4 indices is hit once per source period; the first
pread goes to offset `3 * 512`. -/
theorem Worker.rand_read_uniform_spec_witness :
    (0 < 4) ∧
    (Worker.sample_block 4 7 < 4 ∧
     (∀ v < 4,
       ((Finset.range 4).filter fun u0 => Worker.sample_block 4 u0 = v).card = 1) ∧
     (Worker.rand_read_block [5] 512 (Worker.sample_block 4 7)).1[0]? =
       some (512, Worker.sample_block 4 7 * 512) ∧
     (∃ u1 u2, u1 ≠ u2 ∧ Worker.sample_block 4 u1 = Worker.sample_block 4 u2)) :=
  ⟨by decide, Worker.rand_read_uniform_spec 4 7 512 5 [] (by decide)⟩

/-! ## The run loop (`Worker::run`, main.cpp lines 100-131) -/

/-- The observable state of `Worker::run` (main.cpp lines 100-131): the
current time `now` (nanoseconds, idealising `rusty::time::Instant`), the
pacing deadline `next_begin`, the number of `rw_one_block` calls made so
far, and the list of waits actually performed (each the duration passed to
`sleep_for`, line 117-119). -/
structure RunState where
  now : Nat
  next_begin : Nat
  ops : Nat
  sleeps : List Nat
deriving DecidableEq, Repr

/-- One iteration of the paced loop body (main.cpp lines 109-122): run
`rw_one_block` (taking `d` nanoseconds), then
`next_begin.checked_duration_since(now())` — `some` exactly when the
deadline has not passed, in which case the thread sleeps until
`next_begin` (the wait `next_begin - now` is never negative by
construction; sleeping is idealised as exact) — and finally
`next_begin += interval`, unconditionally. -/
def pacerStep (interval : Nat) (s : RunState) (d : Nat) : RunState :=
  if s.now + d ≤ s.next_begin then
    { now := s.next_begin, next_begin := s.next_begin + interval,
      ops := s.ops + 1, sleeps := s.sleeps ++ [s.next_begin - (s.now + d)] }
  else
    { now := s.now + d, next_begin := s.next_begin + interval,
      ops := s.ops + 1, sleeps := s.sleeps }

/-- The paced branch's `while (num_op)` loop (main.cpp lines 108-122),
with per-operation durations supplied by the stream `ds`. -/
def runPacedLoop (interval : Nat) : Nat → (Nat → Nat) → RunState → RunState
  | 0, _, s => s
  | k + 1, ds, s => runPacedLoop interval k (fun i => ds (i + 1)) (pacerStep interval s (ds 0))

/-- The unpaced branch's `while (num_op)` loop (main.cpp lines 124-128):
operations back-to-back, no wait. -/
def runUnpacedLoop : Nat → (Nat → Nat) → RunState → RunState
  | 0, _, s => s
  | k + 1, ds, s =>
    runUnpacedLoop k (fun i => ds (i + 1))
      { now := s.now + ds 0, next_begin := s.next_begin, ops := s.ops + 1,
        sleeps := s.sleeps }

/-- The pacing interval `Duration::from_nanos(bs * 1e9 / bandwidth)`
(main.cpp lines 103-105); the C double arithmetic and truncation to
integer nanoseconds are idealised as natural division. -/
def Worker.interval (bs bandwidth : Nat) : Nat := bs * 1000000000 / bandwidth

/-- `Worker::run` (main.cpp lines 100-131): when a bandwidth is
configured, the first deadline is established once as `now() + interval`
before the loop (lines 106-107) and the paced loop runs `num_blocks`
times; otherwise the unpaced loop runs `num_blocks` times. -/
def Worker.run (bandwidth : Option Nat) (bs num_blocks t0 : Nat) (ds : Nat → Nat) :
    RunState :=
  match bandwidth with
  | some bw =>
    runPacedLoop (Worker.interval bs bw) num_blocks ds
      { now := t0, next_begin := t0 + Worker.interval bs bw, ops := 0, sleeps := [] }
  | none => runUnpacedLoop num_blocks ds
      { now := t0, next_begin := t0, ops := 0, sleeps := [] }

theorem pacerStep_next_begin (T : Nat) (s : RunState) (d : Nat) :
    (pacerStep T s d).next_begin = s.next_begin + T := by
  unfold pacerStep
  split <;> rfl

theorem pacerStep_ops (T : Nat) (s : RunState) (d : Nat) :
    (pacerStep T s d).ops = s.ops + 1 := by
  unfold pacerStep
  split <;> rfl

theorem pacerStep_now (T : Nat) (s : RunState) (d : Nat) :
    (pacerStep T s d).now = max (s.now + d) s.next_begin := by
  unfold pacerStep
  split <;> (rename_i h; simp only []) <;> omega

theorem runPacedLoop_next_begin (T : Nat) :
    ∀ (k : Nat) (ds : Nat → Nat) (s : RunState),
      (runPacedLoop T k ds s).next_begin = s.next_begin + k * T := by
  intro k
  induction k with
  | zero => intro ds s; simp [runPacedLoop]
  | succ m ih =>
    intro ds s
    rw [runPacedLoop, ih, pacerStep_next_begin]
    ring

theorem runPacedLoop_ops (T : Nat) :
    ∀ (k : Nat) (ds : Nat → Nat) (s : RunState),
      (runPacedLoop T k ds s).ops = s.ops + k := by
  intro k
  induction k with
  | zero => intro ds s; simp [runPacedLoop]
  | succ m ih =>
    intro ds s
    rw [runPacedLoop, ih, pacerStep_ops]
    omega

theorem runUnpacedLoop_state :
    ∀ (k : Nat) (ds : Nat → Nat) (s : RunState),
      runUnpacedLoop k ds s =
        { now := s.now + ∑ i ∈ Finset.range k, ds i, next_begin := s.next_begin,
          ops := s.ops + k, sleeps := s.sleeps } := by
  intro k
  induction k with
  | zero => intro ds s; simp [runUnpacedLoop]
  | succ m ih =>
    intro ds s
    rw [runUnpacedLoop, ih]
    simp only [RunState.mk.injEq]
    refine ⟨?_, trivial, by omega, trivial⟩
    rw [Finset.sum_range_succ']
    omega

/-- **C1.** The paced run loop uses the fixed interval
`T = bs * 1e9 / bandwidth` nanoseconds (within integer rounding); after
`k` operations the pending deadline is `t0 + (k+1)*T` — equivalently the
deadline in force during the `k`-th operation (1-indexed) is `t0 + k*T` —
for *every* duration stream `ds`, so the deadlines form a fixed arithmetic
sequence never rebased after an overrun (no catch-up).  Per step, the
deadline advances by exactly `T`, and the time after the wait is
`max (now + d) next_begin`: the thread blocks until the deadline only if
it has not yet passed, and the wait is skipped (never negative) when it
has. -/
theorem Worker.run_paced_pacing (bs bw t0 k : Nat) (ds : Nat → Nat) :
    Worker.interval bs bw = bs * 1000000000 / bw ∧
    (Worker.run (some bw) bs k t0 ds).next_begin
      = t0 + (k + 1) * Worker.interval bs bw ∧
    ∀ s d, (pacerStep (Worker.interval bs bw) s d).next_begin
        = s.next_begin + Worker.interval bs bw ∧
      (pacerStep (Worker.interval bs bw) s d).now = max (s.now + d) s.next_begin := by
  refine ⟨rfl, ?_, ?_⟩
  · unfold Worker.run
    rw [runPacedLoop_next_begin]
    dsimp only
    ring
  · intro s d
    exact ⟨pacerStep_next_begin _ s d, pacerStep_now _ s d⟩

/-- **C2.** `run()` performs exactly `num_blocks` operations in both the
paced and the unpaced branch, for every bandwidth, duration stream and
start time — there is no early-abort, cancellation or timeout path in the
loops — and in the unpaced branch no wait is ever performed: the finish
time is the start time plus the sum of the operation durations,
back-to-back.  (The operation kind does not influence the count:
`rw_one_block` dispatches on it internally.) -/
theorem Worker.run_exact_count (bandwidth : Option Nat) (bs n t0 : Nat)
    (ds : Nat → Nat) :
    (Worker.run bandwidth bs n t0 ds).ops = n ∧
    (Worker.run none bs n t0 ds).sleeps = [] ∧
    (Worker.run none bs n t0 ds).now = t0 + ∑ i ∈ Finset.range n, ds i := by
  refine ⟨?_, ?_, ?_⟩
  · cases bandwidth with
    | none =>
      unfold Worker.run
      rw [runUnpacedLoop_state]
      simp
    | some bw =>
      unfold Worker.run
      rw [runPacedLoop_ops]
      simp
  · unfold Worker.run
    rw [runUnpacedLoop_state]
  · unfold Worker.run
    rw [runUnpacedLoop_state]

example : Worker.run none 8 3 100 (fun _ => 7) =
    ⟨121, 100, 3, []⟩ := by
  rw [show (121 : Nat) = 100 + ∑ i ∈ Finset.range 3, (fun _ => 7) i from by decide]
  rfl

example : Worker.run (some 4096000) 4096 2 0 (fun _ => 0) =
    ⟨2000000, 3000000, 2, [1000000, 1000000]⟩ := by rfl

example : Worker.run (some 4096000) 4096 2 0 (fun i => if i = 0 then 5000000 else 0) =
    ⟨5000000, 3000000, 2, []⟩ := by rfl

/-! ## `main` after validation: control flow and reporting
(main.cpp lines 303-431) -/

/-- `IOType` (main.cpp lines 21-25). -/
inductive IOType where
  | RandRead
  | Read
  | Write
deriving DecidableEq, Repr

/-- The externally visible actions `main` can perform after argument
validation: opening the target file for reading or for (re)writing, a
provisioning `Write` worker run that fills the file (main.cpp
lines 351-360), a measured worker run (lines 397-406), and printing the
report (lines 408-428).  Each worker effect carries the `num_blocks` it
was constructed with. -/
inductive Effect where
  | openForRead
  | openForWrite
  | prefillRun (num_blocks : Nat)
  | workerRun (num_blocks : Nat)
  | printReport
deriving DecidableEq, Repr

/-- The outcome of `main` after parsing: the ordered effect trace and the
process exit code. -/
structure MainResult where
  effects : List Effect
  exit_code : Nat
deriving DecidableEq, Repr

/-- `main` from the size validation on (main.cpp lines 303-431), with the
filesystem abstracted as a static (exists?, size) pair: reject
non-dividing sizes with exit code 1 (lines 303-307); exit 0 immediately
when `size / bs` is zero (lines 309-311); for the read kinds run the
provisioning sequence (open for read; if the file is missing or smaller
than `size`, fill it with a dedicated `Write` worker and reopen,
lines 314-363) and then the measured run and report; for `Write` reject
`numjobs > 1` with exit code 1 *before* any `open` (lines 365-369),
otherwise open for write and run.  Per-effect failure paths (`open`
returning -1 etc.) are fatal and not traced further. -/
def main_after_parse (io_type : IOType) (numjobs size bs : Nat)
    (file_exists : Bool) (file_size : Nat) : MainResult :=
  if size % bs ≠ 0 then { effects := [], exit_code := 1 }
  else if size / bs = 0 then { effects := [], exit_code := 0 }
  else
    match io_type with
    | IOType.RandRead | IOType.Read =>
      { effects :=
          (if file_exists ∧ size ≤ file_size then [Effect.openForRead]
           else [Effect.openForRead, Effect.openForWrite,
                 Effect.prefillRun (size / bs), Effect.openForRead]) ++
          (List.replicate numjobs (Effect.workerRun (size / bs)) ++ [Effect.printReport]),
        exit_code := 0 }
    | IOType.Write =>
      if 1 < numjobs then { effects := [], exit_code := 1 }
      else
        { effects := [Effect.openForWrite, Effect.workerRun (size / bs),
            Effect.printReport],
          exit_code := 0 }

/-- **C8.** A validated configuration (block size divides the size, at
least one block) with `operation_kind = Write` and `numjobs > 1` is
rejected at the boundary: exit code 1 and an *empty* effect trace — no
file open, no worker construction, no I/O, no report.  (The check at
main.cpp lines 365-369 sits before the `open` of the Write path and
before any Worker is created.) -/
theorem main_write_multithread_rejected (numjobs size bs : Nat)
    (fe : Bool) (fs : Nat)
    (hdiv : size % bs = 0) (hnb : 0 < size / bs) (hjobs : 1 < numjobs) :
    main_after_parse IOType.Write numjobs size bs fe fs =
      { effects := [], exit_code := 1 } := by
  unfold main_after_parse
  rw [if_neg (by omega), if_neg (by omega)]
  dsimp only
  rw [if_pos hjobs]

/-- **C10.** If the validated size yields zero blocks, `main` returns 0
immediately with an empty effect trace — no open, no worker, no I/O, no
report (main.cpp lines 309-311); and every worker effect that any run of
`main_after_parse` can emit (measured or provisioning) carries
`num_blocks ≥ 1`, so the `block_dist` upper bound `num_blocks - 1`
(line 97) never underflows: `(num_blocks - 1) + 1 = num_blocks`. -/
theorem main_zero_blocks_exit (io_type : IOType) (numjobs size bs : Nat)
    (fe : Bool) (fs : Nat) :
    (size % bs = 0 → size / bs = 0 →
      main_after_parse io_type numjobs size bs fe fs =
        { effects := [], exit_code := 0 }) ∧
    (∀ nb,
      (Effect.workerRun nb ∈ (main_after_parse io_type numjobs size bs fe fs).effects ∨
       Effect.prefillRun nb ∈ (main_after_parse io_type numjobs size bs fe fs).effects) →
      0 < nb ∧ Worker.block_dist_hi nb + 1 = nb) := by
  constructor
  · intro h1 h2
    unfold main_after_parse
    rw [if_neg (by omega), if_pos h2]
  · intro nb hmem
    have hnb : nb = size / bs ∧ size / bs ≠ 0 := by
      unfold main_after_parse at hmem
      by_cases h1 : size % bs ≠ 0
      · rw [if_pos h1] at hmem
        simp at hmem
      · rw [if_neg h1] at hmem
        by_cases h2 : size / bs = 0
        · rw [if_pos h2] at hmem
          simp at hmem
        · refine ⟨?_, h2⟩
          rw [if_neg h2] at hmem
          cases io_type with
          | Write =>
            dsimp only at hmem
            by_cases h3 : 1 < numjobs
            · rw [if_pos h3] at hmem
              simp at hmem
            · rw [if_neg h3] at hmem
              rcases hmem with hmem | hmem
              · simp at hmem
                exact hmem
              · simp at hmem
          | RandRead =>
            dsimp only at hmem
            by_cases h4 : fe = true ∧ size ≤ fs
            · rw [if_pos h4] at hmem
              rcases hmem with hmem | hmem
              · rcases List.mem_append.mp hmem with h | h
                · simp at h
                · rcases List.mem_append.mp h with h | h
                  · simpa using List.eq_of_mem_replicate h
                  · simp at h
              · rcases List.mem_append.mp hmem with h | h
                · simp at h
                · rcases List.mem_append.mp h with h | h
                  · have h5 := List.eq_of_mem_replicate h
                    simp at h5
                  · simp at h
            · rw [if_neg h4] at hmem
              rcases hmem with hmem | hmem
              · rcases List.mem_append.mp hmem with h | h
                · simp at h
                · rcases List.mem_append.mp h with h | h
                  · simpa using List.eq_of_mem_replicate h
                  · simp at h
              · rcases List.mem_append.mp hmem with h | h
                · simpa using h
                · rcases List.mem_append.mp h with h | h
                  · have h5 := List.eq_of_mem_replicate h
                    simp at h5
                  · simp at h
          | Read =>
            dsimp only at hmem
            by_cases h4 : fe = true ∧ size ≤ fs
            · rw [if_pos h4] at hmem
              rcases hmem with hmem | hmem
              · rcases List.mem_append.mp hmem with h | h
                · simp at h
                · rcases List.mem_append.mp h with h | h
                  · simpa using List.eq_of_mem_replicate h
                  · simp at h
              · rcases List.mem_append.mp hmem with h | h
                · simp at h
                · rcases List.mem_append.mp h with h | h
                  · have h5 := List.eq_of_mem_replicate h
                    simp at h5
                  · simp at h
            · rw [if_neg h4] at hmem
              rcases hmem with hmem | hmem
              · rcases List.mem_append.mp hmem with h | h
                · simp at h
                · rcases List.mem_append.mp h with h | h
                  · simpa using List.eq_of_mem_replicate h
                  · simp at h
              · rcases List.mem_append.mp hmem with h | h
                · simpa using h
                · rcases List.mem_append.mp h with h | h
                  · have h5 := List.eq_of_mem_replicate h
                    simp at h5
                  · simp at h
    obtain ⟨rfl, hz⟩ := hnb
    have hq : 0 < size / bs := Nat.pos_of_ne_zero hz
    unfold Worker.block_dist_hi
    generalize hg : size / bs = q at hq ⊢
    omega

/-- `rusty::time::Duration::as_secs_double()` on a nanosecond count,
with real arithmetic modelled in `ℚ`. -/
def Duration.as_secs_double (nanos : Nat) : ℚ := (nanos : ℚ) / 1000000000

/-- The printed figures (main.cpp lines 408-428): one grouped line, or
one line per worker.  Throughputs are the printed MB/s values (`ℚ`);
latencies are the printed integer nanosecond values (C integer
division). -/
inductive Report where
  | grouped (throughput_MBps : ℚ) (avg_latency_ns : Nat)
  | per_worker (lines : List (ℚ × Nat))
deriving DecidableEq

/-- The reporting branch of `main` (main.cpp lines 408-428): grouped
exactly when `numjobs > 1 && group_reporting`, using the coordinator's
wall-clock span `run_time` (line 407) and the summed worker `io_time`s;
otherwise one line per worker from that worker's own `run_time` and
`io_time`. -/
def make_report (size num_blocks numjobs : Nat) (group_reporting : Bool)
    (run_times io_times : List Nat) (wall_ns : Nat) : Report :=
  if 1 < numjobs ∧ group_reporting then
    Report.grouped
      (((size * numjobs : Nat) : ℚ) / Duration.as_secs_double wall_ns / 1000000)
      (io_times.sum / (num_blocks * numjobs))
  else
    Report.per_worker (List.zipWith
      (fun rt iot =>
        (((size : Nat) : ℚ) / Duration.as_secs_double rt / 1000000, iot / num_blocks))
      run_times io_times)

/-- The wall-clock span measured by `main` (lines 400-407): `run_start`
is taken before any thread is spawned (time 0 here), every worker `i`
starts at some `starts i ≥ 0` and finishes at `starts i + runs i`, and
`run_start.elapsed()` is read after all joins, i.e. at the last finish
time. -/
def coordinator_wall (starts runs : List Nat) : Nat :=
  (List.zipWith (fun a b => a + b) starts runs).foldr max 0

theorem le_foldr_max (l : List Nat) (x : Nat) (hx : x ∈ l) : x ≤ l.foldr max 0 := by
  induction l with
  | nil => simp at hx
  | cons a t ih =>
    rcases List.mem_cons.mp hx with rfl | hx2
    · exact le_max_left x (t.foldr max 0)
    · exact le_trans (ih hx2) (le_max_right a (t.foldr max 0))

/-- **C7.** With `size` divisible by `bs` (so `size = bs * num_blocks`):
grouped reporting is selected exactly when `numjobs > 1` and the flag is
set, and then the single throughput is
`bs * num_blocks * numjobs` bytes over the coordinator's wall-clock span
(in MB/s), with average latency `(Σ io_time) / (num_blocks * numjobs)`;
otherwise (always when `numjobs = 1`) each worker's line is
`bs * num_blocks` bytes over that worker's own `run_time`, with latency
`io_time / num_blocks`.  The wall-clock span used by the grouped figure
covers the whole concurrent run: it is at least every individual
worker's `run_time` (not the sum of them). -/
theorem main_report_spec (bs size numjobs : Nat) (group : Bool)
    (run_times io_times starts : List Nat) (wall : Nat)
    (hdiv : size % bs = 0) :
    (1 < numjobs ∧ group = true →
      make_report size (size / bs) numjobs group run_times io_times wall =
        Report.grouped
          (((bs * (size / bs) * numjobs : Nat) : ℚ) / ((wall : ℚ) / 1000000000) / 1000000)
          (io_times.sum / ((size / bs) * numjobs))) ∧
    (¬(1 < numjobs ∧ group = true) →
      make_report size (size / bs) numjobs group run_times io_times wall =
        Report.per_worker (List.zipWith
          (fun (rt iot : Nat) =>
            (((bs * (size / bs) : Nat) : ℚ) / ((rt : ℚ) / 1000000000) / 1000000,
             iot / (size / bs)))
          run_times io_times)) ∧
    (∀ (i r : Nat), run_times[i]? = some r → starts.length = run_times.length →
      r ≤ coordinator_wall starts run_times) := by
  have hsz : bs * (size / bs) = size :=
    Nat.mul_div_cancel' (Nat.dvd_of_mod_eq_zero hdiv)
  refine ⟨?_, ?_, ?_⟩
  · intro hcond
    unfold make_report
    rw [if_pos hcond, hsz]
    rfl
  · intro hcond
    unfold make_report
    rw [if_neg hcond, hsz]
    rfl
  · intro i r hr hlen
    obtain ⟨hi, -⟩ := List.getElem?_eq_some.mp hr
    have hilt : i < starts.length := by omega
    have ha : starts[i]? = some starts[i] := List.getElem?_eq_getElem hilt
    have hmem : starts[i] + r ∈ List.zipWith (fun a b => a + b) starts run_times :=
      List.getElem?_mem
        (show (List.zipWith (fun a b => a + b) starts run_times)[i]? =
            some (starts[i] + r) from by
          rw [List.getElem?_zipWith, ha, hr])
    have hle := le_foldr_max _ _ hmem
    unfold coordinator_wall
    omega

/-- **C8 (witness).** `size = 8`, `bs = 4`, `numjobs = 2`, `Write`:
rejected with exit code 1 and no effects. -/
theorem main_write_multithread_rejected_witness :
    ((8 : Nat) % 4 = 0 ∧ 0 < 8 / 4 ∧ 1 < 2) ∧
    main_after_parse IOType.Write 2 8 4 true 0 =
      { effects := [], exit_code := 1 } :=
  ⟨⟨by decide, by decide, by decide⟩,
    main_write_multithread_rejected 2 8 4 true 0 (by decide) (by decide) (by decide)⟩

/-- **C10 (witness).** `size = 0`, `bs = 4`: exit code 0, no effects. -/
theorem main_zero_blocks_exit_witness :
    main_after_parse IOType.RandRead 2 0 4 true 0 =
      { effects := [], exit_code := 0 } :=
  (main_zero_blocks_exit IOType.RandRead 2 0 4 true 0).1 (by decide) (by decide)

/-- **C7 (witness).** `bs = 4`, `size = 8` (2 blocks), 2 workers, grouped:
throughput is `4·2·2` bytes over a 9 ns wall in MB/s and latency
`(3+4)/(2·2)` ns. -/
theorem main_report_spec_witness :
    make_report 8 (8 / 4) 2 true [5, 7] [3, 4] 9 =
      Report.grouped
        (((4 * (8 / 4) * 2 : Nat) : ℚ) / ((9 : ℚ) / 1000000000) / 1000000)
        (([3, 4] : List Nat).sum / ((8 / 4) * 2)) :=
  (main_report_spec 4 8 2 true [5, 7] [3, 4] [0, 1] 9 (by decide)).1
    ⟨by decide, rfl⟩

example : main_after_parse IOType.Write 1 8 4 true 0 =
    { effects := [Effect.openForWrite, Effect.workerRun 2, Effect.printReport],
      exit_code := 0 } := by decide

example : main_after_parse IOType.RandRead 2 8 4 true 8 =
    { effects := [Effect.openForRead, Effect.workerRun 2, Effect.workerRun 2,
        Effect.printReport],
      exit_code := 0 } := by decide

example : main_after_parse IOType.Read 1 8 4 false 0 =
    { effects := [Effect.openForRead, Effect.openForWrite, Effect.prefillRun 2,
        Effect.openForRead, Effect.workerRun 2, Effect.printReport],
      exit_code := 0 } := by decide
